import Mathlib

/-!
Shallow embedding of `examples/pytorch/pagcn_nssc.py` from the PaGraph
repository: a distributed GCN training driver with neighbor sampling,
per-rank graph partitions, periodic logging and checkpointing.

Pure computations of the script (label-vector construction, the
`num_hops` selection, the checkpoint condition and path, the launcher's
directory preparation) are embedded as Lean functions; the effectful
parts (process initialization, the training loop, console logging,
checkpoint writes) are embedded as explicit event traces; fallible
stages are embedded with `Except`.
-/

/-- Command-line arguments of the script, with the argparse defaults.
Float-valued hyper-parameters (dropout, lr, weight decay) are omitted:
no claim depends on them. -/
structure Args where
  gpu : String := "cpu"
  dataset : Option String := none
  feat_size : Nat := 300
  n_classes : Nat := 60
  n_hidden : Nat := 32
  n_layers : Nat := 1
  preprocess : Bool := false
  n_epochs : Nat := 60
  batch_size : Nat := 2500
  num_neighbors : Nat := 2
  ckpt : String := "checkpoint"
deriving DecidableEq

/-- Embeds `num_hops = args.n_layers if args.preprocess else args.n_layers`
(line 61 of the script): both branches of the conditional are the
expression `args.n_layers`. -/
def num_hops (a : Args) : Nat :=
  if a.preprocess then a.n_layers else a.n_layers

/-- Observable worker state left by `init_process`: the rendezvous
environment variables it sets, the fact that it joined the process
group, and the seed passed to `torch.manual_seed`. -/
structure ProcState where
  masterAddr : String
  masterPort : String
  groupJoined : Bool
  seed : Nat
deriving DecidableEq

/-- Embeds `init_process(rank, world_size, backend)`: sets
`MASTER_ADDR = '127.0.0.1'`, `MASTER_PORT = '29501'`, joins the process
group, and calls `torch.manual_seed(rank)` — the seed is the rank. -/
def init_process (rank world_size : Nat) : ProcState :=
  { masterAddr := "127.0.0.1"
    masterPort := "29501"
    groupJoined := true
    seed := rank }

/-- Effects of the `__main__` launcher block, in program order. -/
inductive MainEvent where
  | mkdirCkpt (path : String)
  | spawnWorkers (nprocs : Nat)
deriving DecidableEq

/-- Embeds `if not os.path.exists(args.ckpt): os.mkdir(args.ckpt)`:
given whether the checkpoint directory existed beforehand, returns
whether it exists afterwards together with the emitted filesystem
events. -/
def launcherPrep (ckpt : String) (ckptExists : Bool) : Bool × List MainEvent :=
  if ckptExists then (ckptExists, []) else (true, [MainEvent.mkdirCkpt ckpt])

/-- Embeds the tail of the `__main__` block: prepare the checkpoint
directory, then `mp.spawn(trainer, ..., nprocs=gpu_num, join=True)`.
Returns whether the checkpoint directory exists at spawn time and the
ordered event list. -/
def launcherMain (ckpt : String) (ckptExists : Bool) (gpuNum : Nat) : Bool × List MainEvent :=
  ((launcherPrep ckpt ckptExists).1,
    (launcherPrep ckpt ckptExists).2 ++ [MainEvent.spawnWorkers gpuNum])

/-- Embeds the subset of `os.path.join` behaviour the script exercises:
joining a directory with a plain (relative, non-empty) file name. -/
def ospath_join (a b : String) : String :=
  if a = "" then b else if a.endsWith "/" then a ++ b else a ++ "/" ++ b

/-- Checkpoint file path: `os.path.join(args.ckpt, 'gcn-nssc_{}'.format(epoch + 1))`. -/
def ckptFilepath (ckptDir : String) (epoch : Nat) : String :=
  ospath_join ckptDir ("gcn-nssc_" ++ toString (epoch + 1))

/-- Embeds the end-of-epoch checkpoint conditional
`if (epoch + 1) % 5 == 0 and rank == 0: ... torch.save(model.module, filepath)`:
returns the path written, if any. -/
def checkpointAction (ckptDir : String) (rank epoch : Nat) : Option String :=
  if (epoch + 1) % 5 = 0 ∧ rank = 0 then some (ckptFilepath ckptDir epoch) else none

/-- C8: for every argument configuration the number of hops passed to the
neighbor sampler equals `n_layers`, whatever the value of the
`preprocess` flag: both branches of the conditional are identical, so the
preprocessing toggle has no effect on the sampling depth. -/
theorem num_hops_eq_n_layers_and_independent_of_preprocess (a : Args) :
    num_hops a = a.n_layers ∧
    ∀ b : Bool, num_hops { a with preprocess := b } = num_hops a := by
  constructor
  · unfold num_hops
    exact ite_self a.n_layers
  · intro b
    unfold num_hops
    simp

/-- C2: process initialization seeds the worker's random generator with
the worker's rank (the seed equals the rank), so any sample order that is
a function of the seed is identical across two runs with the same rank
and the same inputs. -/
theorem init_process_seed_eq_rank (rank world_size : Nat) :
    (init_process rank world_size).seed = rank ∧
    ∀ (sampleOrder : Nat → List Nat) (rank2 world_size2 : Nat),
      rank2 = rank → world_size2 = world_size →
      sampleOrder (init_process rank2 world_size2).seed
        = sampleOrder (init_process rank world_size).seed := by
  refine ⟨rfl, ?_⟩
  intro sampleOrder rank2 world_size2 h1 h2
  rw [h1, h2]

/-- C2 witness: at rank 3 the seed is 3, and two runs of rank 3 with
world size 4 give the same sample order for a concrete order function. -/
theorem init_process_seed_eq_rank_witness :
    (init_process 3 4).seed = 3 ∧
    (fun s => [s, s + 1]) (init_process 3 4).seed
      = (fun s => [s, s + 1]) (init_process 3 4).seed :=
  ⟨(init_process_seed_eq_rank 3 4).1,
   (init_process_seed_eq_rank 3 4).2 (fun s => [s, s + 1]) 3 4 rfl rfl⟩

/-- C7: the launcher creates the checkpoint directory when it does not
exist, before spawning any worker: the directory exists at spawn time,
and when it was absent the `mkdir` event strictly precedes the `spawn`
event in the launcher's trace. -/
theorem launcher_creates_ckpt_dir_before_spawn (ckpt : String) (e : Bool) (n : Nat) :
    (launcherMain ckpt e n).1 = true ∧
    (e = false →
      (launcherMain ckpt e n).2 = [MainEvent.mkdirCkpt ckpt, MainEvent.spawnWorkers n]) ∧
    (e = true →
      (launcherMain ckpt e n).2 = [MainEvent.spawnWorkers n]) := by
  cases e <;> simp [launcherMain, launcherPrep]

/-- C7 witness: with the directory absent, the launcher trace is
exactly mkdir followed by spawn, and the directory exists at spawn. -/
theorem launcher_creates_ckpt_dir_before_spawn_witness :
    (launcherMain "checkpoint" false 2).1 = true ∧
    (launcherMain "checkpoint" false 2).2
      = [MainEvent.mkdirCkpt "checkpoint", MainEvent.spawnWorkers 2] :=
  ⟨(launcher_creates_ckpt_dir_before_spawn "checkpoint" false 2).1,
   (launcher_creates_ckpt_dir_before_spawn "checkpoint" false 2).2.1 rfl⟩

/-- Embeds `np.max(train_nid)`: `none` on an empty array (numpy raises
`ValueError` there), otherwise the maximum element. -/
def np_max (l : List Nat) : Option Nat :=
  match l with
  | [] => none
  | x :: xs => some (xs.foldl max x)

/-- Embeds numpy fancy-index assignment `labels[train_nid] = sub_labels`:
writes `vals` at positions `idxs` into `base`, left to right (so on a
duplicated index the last write wins, as in numpy). -/
def scatterAssign : List Int → List Nat → List Int → List Int
  | base, i :: is, v :: vs => scatterAssign (base.set i v) is vs
  | base, _, _ => base

/-- Embeds lines 45-47 of the script:
`labels = np.zeros(np.max(train_nid) + 1, dtype=np.int)` followed by
`labels[train_nid] = sub_labels`; `none` when `train_nid` is empty, where
`np.max` raises. -/
def buildLabels (train_nid : List Nat) (sub_labels : List Int) : Option (List Int) :=
  match np_max train_nid with
  | none => none
  | some m => some (scatterAssign (List.replicate (m + 1) 0) train_nid sub_labels)

theorem le_foldl_max (xs : List Nat) : ∀ a : Nat, a ≤ xs.foldl max a := by
  induction xs with
  | nil => intro a; exact Nat.le_refl a
  | cons x xs ih =>
    intro a
    rw [List.foldl_cons]
    exact Nat.le_trans (Nat.le_max_left a x) (ih (max a x))

theorem mem_le_foldl_max (xs : List Nat) : ∀ a x : Nat, x ∈ xs → x ≤ xs.foldl max a := by
  induction xs with
  | nil => intro a x h; cases h
  | cons y ys ih =>
    intro a x h
    rw [List.foldl_cons]
    rcases List.mem_cons.mp h with rfl | hys
    · exact Nat.le_trans (Nat.le_max_right a x) (le_foldl_max ys (max a x))
    · exact ih (max a y) x hys

theorem np_max_le {tn : List Nat} {m : Nat} (h : np_max tn = some m) :
    ∀ x ∈ tn, x ≤ m := by
  cases tn with
  | nil => simp [np_max] at h
  | cons t ts =>
    intro x hx
    have hm : ts.foldl max t = m := by simpa [np_max] using h
    rcases List.mem_cons.mp hx with rfl | hts
    · exact hm ▸ le_foldl_max ts x
    · exact hm ▸ mem_le_foldl_max ts t x hts

theorem scatterAssign_length (idxs : List Nat) :
    ∀ (base : List Int) (vals : List Int),
      (scatterAssign base idxs vals).length = base.length := by
  induction idxs with
  | nil => intro base vals; simp [scatterAssign]
  | cons i is ih =>
    intro base vals
    cases vals with
    | nil => simp [scatterAssign]
    | cons v vs =>
      rw [show scatterAssign base (i :: is) (v :: vs)
            = scatterAssign (base.set i v) is vs from rfl]
      rw [ih (base.set i v) vs, List.length_set]

theorem scatterAssign_getElem?_not_mem (idxs : List Nat) :
    ∀ (vals : List Int) (base : List Int) (p : Nat), p ∉ idxs →
      (scatterAssign base idxs vals)[p]? = base[p]? := by
  induction idxs with
  | nil => intro vals base p _; simp [scatterAssign]
  | cons i is ih =>
    intro vals base p hp
    cases vals with
    | nil => simp [scatterAssign]
    | cons v vs =>
      have hpi : p ≠ i := fun h => hp (h ▸ List.mem_cons_self i is)
      have hpis : p ∉ is := fun h => hp (List.mem_cons_of_mem _ h)
      rw [show scatterAssign base (i :: is) (v :: vs)
            = scatterAssign (base.set i v) is vs from rfl]
      rw [ih vs (base.set i v) p hpis]
      exact List.getElem?_set_ne (Ne.symm hpi)

theorem scatterAssign_getElem?_zip (idxs : List Nat) :
    ∀ (vals : List Int) (base : List Int), idxs.Nodup →
      (∀ x ∈ idxs, x < base.length) →
      ∀ p v, (p, v) ∈ idxs.zip vals →
        (scatterAssign base idxs vals)[p]? = some v := by
  induction idxs with
  | nil => intro vals base _ _ p v hmem; simp at hmem
  | cons i is ih =>
    intro vals base hnd hb p v hmem
    cases vals with
    | nil => simp at hmem
    | cons w ws =>
      obtain ⟨hi_notin, hnd_is⟩ := List.nodup_cons.mp hnd
      rw [List.zip_cons_cons] at hmem
      rw [show scatterAssign base (i :: is) (w :: ws)
            = scatterAssign (base.set i w) is ws from rfl]
      rcases List.mem_cons.mp hmem with heq | htail
      · injection heq with hp hv
        subst hp; subst hv
        rw [scatterAssign_getElem?_not_mem is ws (base.set p v) p hi_notin]
        exact List.getElem?_set_self (hb p (List.mem_cons_self p is))
      · apply ih ws (base.set i w) hnd_is ?_ p v htail
        intro x hx
        rw [List.length_set]
        exact hb x (List.mem_cons_of_mem _ hx)

/-- C3: the label vector has length max training id + 1, holds the
partition's training labels exactly at the positions listed in the
training-node-id array (both as pairs of the zipped lists and
index-by-index), and holds zero at every other in-range position. -/
theorem labels_construction (tn : List Nat) (sl : List Int) (m : Nat) (ls : List Int)
    (hmax : np_max tn = some m) (hbuild : buildLabels tn sl = some ls)
    (hnd : tn.Nodup) (hlen : sl.length = tn.length) :
    ls.length = m + 1 ∧
    (∀ p v, (p, v) ∈ tn.zip sl → ls[p]? = some v) ∧
    (∀ i, ∀ hi : i < tn.length, ls[tn[i]]? = sl[i]?) ∧
    (∀ p : Nat, p < ls.length → p ∉ tn → ls[p]? = some 0) := by
  have hbound : ∀ x ∈ tn, x < (List.replicate (m + 1) (0 : Int)).length := by
    intro x hx
    rw [List.length_replicate]
    exact Nat.lt_succ_of_le (np_max_le hmax x hx)
  have hls : ls = scatterAssign (List.replicate (m + 1) 0) tn sl := by
    unfold buildLabels at hbuild
    rw [hmax] at hbuild
    exact (Option.some.inj hbuild).symm
  subst hls
  have hzip : ∀ p v, (p, v) ∈ tn.zip sl →
      (scatterAssign (List.replicate (m + 1) 0) tn sl)[p]? = some v :=
    scatterAssign_getElem?_zip tn sl (List.replicate (m + 1) 0) hnd hbound
  refine ⟨?_, hzip, ?_, ?_⟩
  · rw [scatterAssign_length, List.length_replicate]
  · intro i hi
    have hi2 : i < sl.length := by rw [hlen]; exact hi
    have hmemz : (tn[i], sl[i]) ∈ tn.zip sl := by
      apply List.getElem?_mem
      rw [List.getElem?_zip_eq_some]
      exact ⟨List.getElem?_eq_getElem hi, List.getElem?_eq_getElem hi2⟩
    rw [hzip tn[i] sl[i] hmemz, List.getElem?_eq_getElem hi2]
  · intro p hp hnot
    rw [scatterAssign_getElem?_not_mem tn sl _ p hnot]
    apply List.getElem?_replicate_of_lt
    rw [scatterAssign_length, List.length_replicate] at hp
    exact hp

/-- C3 witness: for partition data `train_nid = [2, 0]`,
`sub_labels = [5, 7]`, the label vector is `[7, 0, 5]`: length is
max + 1 = 3, position 2 holds 5, position 0 holds 7, and the remaining
position 1 holds 0. -/
theorem labels_construction_witness :
    ([7, 0, 5] : List Int).length = 2 + 1 ∧
    ([7, 0, 5] : List Int)[2]? = some 5 ∧
    ([7, 0, 5] : List Int)[0]? = some 7 ∧
    ([7, 0, 5] : List Int)[1]? = some 0 := by
  have h := labels_construction [2, 0] [5, 7] 2 [7, 0, 5]
    (by decide) (by decide) (by decide) (by decide)
  exact ⟨h.1, h.2.1 2 5 (by decide), h.2.1 0 7 (by decide),
    h.2.2.2 1 (by decide) (by decide)⟩

/-- C9: when the training-node-id array is non-empty and every
mini-batch seed id is drawn from it, label construction succeeds and
every lookup index is strictly below the label vector's length (so
`labels[batch_nids]` is in bounds); when the array is empty, label
construction itself fails. -/
theorem label_lookup_in_bounds (tn : List Nat) (sl : List Int) (bn : List Nat)
    (hne : tn ≠ []) (hsub : ∀ x ∈ bn, x ∈ tn) :
    (∃ ls, buildLabels tn sl = some ls ∧ ∀ x ∈ bn, x < ls.length) ∧
    (∀ sl2 : List Int, buildLabels [] sl2 = none) := by
  constructor
  · cases tn with
    | nil => exact absurd rfl hne
    | cons t ts =>
      refine ⟨scatterAssign (List.replicate (ts.foldl max t + 1) 0) (t :: ts) sl, ?_, ?_⟩
      · rfl
      · intro x hx
        rw [scatterAssign_length, List.length_replicate]
        exact Nat.lt_succ_of_le
          (np_max_le (show np_max (t :: ts) = some (ts.foldl max t) from rfl) x (hsub x hx))
  · intro sl2; rfl

/-- C9 witness: with `train_nid = [2, 0]` and batch seed ids `[0, 2]`,
the built label vector `[7, 0, 5]` has every lookup in bounds, and on
an empty training-node-id array construction returns `none`. -/
theorem label_lookup_in_bounds_witness :
    2 < ([7, 0, 5] : List Int).length ∧
    buildLabels ([] : List Nat) [9] = none := by
  obtain ⟨⟨ls, hbuild, hb⟩, hnil⟩ :=
    label_lookup_in_bounds [2, 0] [5, 7] [0, 2] (by decide) (by decide)
  have hc : buildLabels [2, 0] [5, 7] = some [7, 0, 5] := by decide
  rw [hc] at hbuild
  injection hbuild with he
  exact ⟨he ▸ hb 2 (by decide), hnil [9]⟩

/-- Observable effects of one worker's `trainer` run, in program order. -/
inductive Event where
  | initGroup (rank : Nat)
  | seedRng (seed : Nat)
  | loadPartition (rank : Nat)
  | fetchFeatures
  | buildTrainModel
  | buildInferModel
  | trainModelToDevice
  | inferModelToDevice
  | wrapDDP
  | sampleBatch (seeds : List Nat)
  | trainForward
  | inferForward
  | lossBackward
  | optStep
  | logLoss (epoch step : Nat)
  | logEpoch (epoch : Nat)
  | saveCkpt (path : String)
deriving DecidableEq

/-- Setup phase of `trainer` (lines 33-84), in program order: process
initialization, partition load, remote feature fetch, construction of
the training model and of the full-graph inference model, the moves of
both to the worker's device, and the DDP wrap. -/
def setupEvents (rank : Nat) : List Event :=
  [Event.initGroup rank, Event.seedRng rank, Event.loadPartition rank,
   Event.fetchFeatures, Event.buildTrainModel, Event.buildInferModel,
   Event.trainModelToDevice, Event.inferModelToDevice, Event.wrapDDP]

/-- Body of one sampler iteration (lines 98-117): consume the node flow,
forward, backward, optimizer step, then `step += 1` and the conditional
`if rank == 0 and step % 20 == 0: print(...)` with the incremented
counter. -/
def batchEvents (rank epoch stepAfter : Nat) (nf : List Nat) : List Event :=
  [Event.sampleBatch nf, Event.trainForward, Event.lossBackward, Event.optStep]
    ++ (if rank = 0 ∧ stepAfter % 20 = 0
        then [Event.logLoss (epoch + 1) stepAfter] else [])

/-- The per-epoch sampler loop, threading the `step` counter (which
starts at 0 and is incremented once per node flow). -/
def loopGo (rank epoch : Nat) : Nat → List (List Nat) → List Event
  | _, [] => []
  | step, nf :: rest =>
      batchEvents rank epoch (step + 1) nf ++ loopGo rank epoch (step + 1) rest

/-- One iteration of the epoch loop (lines 86-123): the sampler loop,
then `if rank == 0: print('Epoch average time...')`, then the
conditional checkpoint write. -/
def epochEvents (d : String) (rank epoch : Nat) (flows : List (List Nat)) : List Event :=
  loopGo rank epoch 0 flows
    ++ (if rank = 0 then [Event.logEpoch (epoch + 1)] else [])
    ++ (match checkpointAction d rank epoch with
        | some p => [Event.saveCkpt p]
        | none => [])

/-- Concatenation of per-epoch traces over a list of epoch indices. -/
def concatMap (f : Nat → List Event) : List Nat → List Event
  | [] => []
  | x :: xs => f x ++ concatMap f xs

/-- Full trace of one worker's `trainer` run: setup, then the epoch loop
for `n_epochs` epochs, the sampler being re-invoked each epoch
(`flowsOf ep` is the node-flow sequence it yields in epoch `ep`). -/
def trainerEvents (d : String) (rank nEpochs : Nat)
    (flowsOf : Nat → List (List Nat)) : List Event :=
  setupEvents rank
    ++ concatMap (fun ep => epochEvents d rank ep (flowsOf ep)) (List.range nEpochs)

/-- Fuel-indexed chunking of a seed list into consecutive batches of
size `b`; the fuel is an upper bound on the number of chunks. -/
def chunkGo (b : Nat) : Nat → List Nat → List (List Nat)
  | _, [] => []
  | 0, _ :: _ => []
  | fuel + 1, x :: xs =>
      (x :: xs.take (b - 1)) :: chunkGo b fuel (xs.drop (b - 1))

/-- Modelled from the spec: the external DGL `NeighborSampler` (not part
of this repository) yields a lazy, finite-per-epoch sequence of node
flows over the shuffled seed nodes, one flow per consecutive batch of
`batch_size` seed nodes — `ceil(len(seed_nodes) / batch_size)` flows in
all. This chunks the (already shuffled) seed list into those batches. -/
def chunkSeeds (b : Nat) (seeds : List Nat) : List (List Nat) :=
  chunkGo b seeds.length seeds

/-- Number of optimizer steps recorded in a trace. -/
def countOpt (tr : List Event) : Nat :=
  (tr.filter fun ev => decide (ev = Event.optStep)).length

/-- Number of inference-model invocations recorded in a trace. -/
def countInfer (tr : List Event) : Nat :=
  (tr.filter fun ev => decide (ev = Event.inferForward)).length

theorem countOpt_append (a b : List Event) :
    countOpt (a ++ b) = countOpt a + countOpt b := by
  unfold countOpt
  rw [List.filter_append, List.length_append]

theorem countOpt_batch (rank epoch step : Nat) (nf : List Nat) :
    countOpt (batchEvents rank epoch step nf) = 1 := by
  unfold countOpt batchEvents
  split <;> simp

theorem countOpt_loopGo (rank epoch : Nat) (flows : List (List Nat)) :
    ∀ step, countOpt (loopGo rank epoch step flows) = flows.length := by
  induction flows with
  | nil => intro step; rfl
  | cons nf rest ih =>
    intro step
    rw [show loopGo rank epoch step (nf :: rest)
          = batchEvents rank epoch (step + 1) nf ++ loopGo rank epoch (step + 1) rest
        from rfl]
    rw [countOpt_append, countOpt_batch, ih (step + 1), List.length_cons]
    omega

theorem countOpt_setup (rank : Nat) : countOpt (setupEvents rank) = 0 := by
  simp [countOpt, setupEvents]

theorem countOpt_epoch (d : String) (rank epoch : Nat) (flows : List (List Nat)) :
    countOpt (epochEvents d rank epoch flows) = flows.length := by
  unfold epochEvents
  rw [countOpt_append, countOpt_append, countOpt_loopGo]
  have h1 : countOpt (if rank = 0 then [Event.logEpoch (epoch + 1)] else []) = 0 := by
    split <;> simp [countOpt]
  have h2 : countOpt (match checkpointAction d rank epoch with
      | some p => [Event.saveCkpt p]
      | none => []) = 0 := by
    cases checkpointAction d rank epoch <;> simp [countOpt]
  rw [h1, h2]
  omega

theorem chunkGo_length (b : Nat) (hb : 0 < b) :
    ∀ (fuel : Nat) (seeds : List Nat), seeds.length ≤ fuel →
      (chunkGo b fuel seeds).length = (seeds.length + b - 1) / b := by
  intro fuel
  induction fuel with
  | zero =>
    intro seeds hle
    cases seeds with
    | nil =>
      rw [show chunkGo b 0 ([] : List Nat) = [] from rfl]
      simp only [List.length_nil, Nat.zero_add]
      exact (Nat.div_eq_of_lt (by omega)).symm
    | cons x xs => exact absurd hle (by simp)
  | succ fuel ih =>
    intro seeds hle
    cases seeds with
    | nil =>
      rw [show chunkGo b (fuel + 1) ([] : List Nat) = [] from rfl]
      simp only [List.length_nil, Nat.zero_add]
      exact (Nat.div_eq_of_lt (by omega)).symm
    | cons x xs =>
      rw [show chunkGo b (fuel + 1) (x :: xs)
            = (x :: xs.take (b - 1)) :: chunkGo b fuel (xs.drop (b - 1)) from rfl]
      rw [List.length_cons]
      have hdrop : (xs.drop (b - 1)).length = xs.length - (b - 1) := List.length_drop ..
      have hle2 : (xs.drop (b - 1)).length ≤ fuel := by
        rw [hdrop]
        rw [List.length_cons] at hle
        omega
      rw [ih (xs.drop (b - 1)) hle2, hdrop, List.length_cons]
      have hR : xs.length + 1 + b - 1 = xs.length + b := by omega
      rw [hR, Nat.add_div_right _ hb]
      rcases Nat.lt_or_ge xs.length (b - 1) with hlt | hge
      · have h0 : xs.length - (b - 1) + b - 1 = b - 1 := by omega
        rw [h0, Nat.div_eq_of_lt (by omega), Nat.div_eq_of_lt (by omega)]
      · have hL : xs.length - (b - 1) + b - 1 = xs.length := by omega
        rw [hL]

theorem chunkSeeds_length (b : Nat) (seeds : List Nat) (hb : 0 < b) :
    (chunkSeeds b seeds).length = (seeds.length + b - 1) / b :=
  chunkGo_length b hb seeds.length seeds (Nat.le_refl _)

theorem mem_concatMap {ev : Event} {f : Nat → List Event} :
    ∀ {l : List Nat}, ev ∈ concatMap f l → ∃ x, x ∈ l ∧ ev ∈ f x := by
  intro l
  induction l with
  | nil => intro h; cases h
  | cons x xs ih =>
    intro h
    rw [show concatMap f (x :: xs) = f x ++ concatMap f xs from rfl] at h
    rcases List.mem_append.mp h with h1 | h2
    · exact ⟨x, List.mem_cons_self x xs, h1⟩
    · obtain ⟨y, hy, hm⟩ := ih h2
      exact ⟨y, List.mem_cons_of_mem x hy, hm⟩

/-- C4: each node flow of an epoch contributes exactly one optimizer
step, the batch body is ordered sample, forward, backward, optimizer
step, and with `n_epochs = 1` the total number of optimizer steps is
`ceil(len(train_nid) / batch_size)`, the number of flows the sampler
yields. -/
theorem one_opt_step_per_node_flow (d : String) (rank epoch : Nat)
    (flows : List (List Nat)) (seeds : List Nat) (b : Nat) (hb : 0 < b) :
    countOpt (epochEvents d rank epoch flows) = flows.length ∧
    (∀ step nf, ∃ t, batchEvents rank epoch step nf
        = [Event.sampleBatch nf, Event.trainForward, Event.lossBackward,
           Event.optStep] ++ t) ∧
    (chunkSeeds b seeds).length = (seeds.length + b - 1) / b ∧
    countOpt (trainerEvents d rank 1 (fun _ => chunkSeeds b seeds))
      = (seeds.length + b - 1) / b := by
  refine ⟨countOpt_epoch d rank epoch flows, ?_, chunkSeeds_length b seeds hb, ?_⟩
  · intro step nf
    exact ⟨_, rfl⟩
  · show countOpt (setupEvents rank
        ++ concatMap (fun ep => epochEvents d rank ep (chunkSeeds b seeds))
             (List.range 1)) = _
    rw [countOpt_append, countOpt_setup, Nat.zero_add,
      show List.range 1 = [0] from rfl,
      show concatMap (fun ep => epochEvents d rank ep (chunkSeeds b seeds)) [0]
        = epochEvents d rank 0 (chunkSeeds b seeds) ++ [] from rfl,
      List.append_nil, countOpt_epoch, chunkSeeds_length b seeds hb]

/-- C4 witness: two flows give two optimizer steps, and with 3 seed
nodes and batch size 2 the single-epoch run performs
ceil(3 / 2) = 2 optimizer steps. -/
theorem one_opt_step_per_node_flow_witness :
    countOpt (epochEvents "c" 0 0 [[0], [1]]) = 2 ∧
    countOpt (trainerEvents "c" 0 1 (fun _ => chunkSeeds 2 [0, 1, 2])) = 2 := by
  have h := one_opt_step_per_node_flow "c" 0 0 [[0], [1]] [0, 1, 2] 2 (by decide)
  exact ⟨h.1, h.2.2.2⟩

theorem logLoss_batch {rank epoch step e s : Nat} {nf : List Nat}
    (h : Event.logLoss e s ∈ batchEvents rank epoch step nf) :
    rank = 0 ∧ s % 20 = 0 := by
  unfold batchEvents at h
  rcases List.mem_append.mp h with h4 | hopt
  · simp at h4
  · by_cases hc : rank = 0 ∧ step % 20 = 0
    · rw [if_pos hc] at hopt
      simp at hopt
      exact ⟨hc.1, hopt.2 ▸ hc.2⟩
    · rw [if_neg hc] at hopt
      cases hopt

theorem logLoss_loopGo {rank epoch e s : Nat} (flows : List (List Nat)) :
    ∀ step, Event.logLoss e s ∈ loopGo rank epoch step flows →
      rank = 0 ∧ s % 20 = 0 := by
  induction flows with
  | nil => intro step h; cases h
  | cons nf rest ih =>
    intro step h
    rw [show loopGo rank epoch step (nf :: rest)
          = batchEvents rank epoch (step + 1) nf ++ loopGo rank epoch (step + 1) rest
        from rfl] at h
    rcases List.mem_append.mp h with hb | hr
    · exact logLoss_batch hb
    · exact ih (step + 1) hr

theorem logLoss_epoch {d : String} {rank epoch e s : Nat} {flows : List (List Nat)}
    (h : Event.logLoss e s ∈ epochEvents d rank epoch flows) :
    rank = 0 ∧ s % 20 = 0 := by
  unfold epochEvents at h
  rcases List.mem_append.mp h with h12 | h3
  · rcases List.mem_append.mp h12 with h1 | h2
    · exact logLoss_loopGo flows 0 h1
    · by_cases hr : rank = 0
      · rw [if_pos hr] at h2; simp at h2
      · rw [if_neg hr] at h2; cases h2
  · cases hca : checkpointAction d rank epoch with
    | none => rw [hca] at h3; simp at h3
    | some p => rw [hca] at h3; simp at h3

theorem logEpoch_not_batch {rank epoch step e : Nat} {nf : List Nat} :
    Event.logEpoch e ∉ batchEvents rank epoch step nf := by
  intro h
  unfold batchEvents at h
  rcases List.mem_append.mp h with h4 | hopt
  · simp at h4
  · by_cases hc : rank = 0 ∧ step % 20 = 0
    · rw [if_pos hc] at hopt; simp at hopt
    · rw [if_neg hc] at hopt; cases hopt

theorem logEpoch_not_loopGo {rank epoch e : Nat} (flows : List (List Nat)) :
    ∀ step, Event.logEpoch e ∉ loopGo rank epoch step flows := by
  induction flows with
  | nil => intro step h; cases h
  | cons nf rest ih =>
    intro step h
    rw [show loopGo rank epoch step (nf :: rest)
          = batchEvents rank epoch (step + 1) nf ++ loopGo rank epoch (step + 1) rest
        from rfl] at h
    rcases List.mem_append.mp h with hb | hr
    · exact logEpoch_not_batch hb
    · exact ih (step + 1) hr

theorem logEpoch_epoch {d : String} {rank epoch e : Nat} {flows : List (List Nat)}
    (h : Event.logEpoch e ∈ epochEvents d rank epoch flows) : rank = 0 := by
  unfold epochEvents at h
  rcases List.mem_append.mp h with h12 | h3
  · rcases List.mem_append.mp h12 with h1 | h2
    · exact absurd h1 (logEpoch_not_loopGo flows 0)
    · by_cases hr : rank = 0
      · exact hr
      · rw [if_neg hr] at h2; cases h2
  · cases hca : checkpointAction d rank epoch with
    | none => rw [hca] at h3; simp at h3
    | some p => rw [hca] at h3; simp at h3

/-- C6: in a worker's trace, a loss/batch-timing console log occurs only
on rank 0 and only at a step counter that is a multiple of 20, and an
epoch-timing console log occurs only on rank 0; workers of non-zero rank
emit neither. -/
theorem loss_and_timing_logged_only_on_rank0 (d : String) (rank ne : Nat)
    (flowsOf : Nat → List (List Nat)) (e s : Nat) :
    (Event.logLoss e s ∈ trainerEvents d rank ne flowsOf →
      rank = 0 ∧ s % 20 = 0) ∧
    (Event.logEpoch e ∈ trainerEvents d rank ne flowsOf → rank = 0) := by
  constructor
  · intro h
    unfold trainerEvents at h
    rcases List.mem_append.mp h with hs | hc
    · simp [setupEvents] at hs
    · obtain ⟨ep, _, hmem⟩ := mem_concatMap hc
      exact logLoss_epoch hmem
  · intro h
    unfold trainerEvents at h
    rcases List.mem_append.mp h with hs | hc
    · simp [setupEvents] at hs
    · obtain ⟨ep, _, hmem⟩ := mem_concatMap hc
      exact logEpoch_epoch hmem

/-- C6 witness: in a rank-0 single-epoch run with 20 node flows the
trace contains the loss log at step 20 and the epoch-timing log, and the
theorem applied there yields rank 0 and a step divisible by 20. -/
theorem loss_and_timing_logged_only_on_rank0_witness :
    (0 = 0 ∧ 20 % 20 = 0) ∧ 0 = 0 :=
  ⟨(loss_and_timing_logged_only_on_rank0 "c" 0 1
      (fun _ => List.replicate 20 [0]) 1 20).1 (by decide),
   (loss_and_timing_logged_only_on_rank0 "c" 0 1
      (fun _ => List.replicate 20 [0]) 1 1).2 (by decide)⟩

theorem mem_concatMap_of (f : Nat → List Event) (ev : Event) :
    ∀ (l : List Nat) (x : Nat), x ∈ l → ev ∈ f x → ev ∈ concatMap f l := by
  intro l
  induction l with
  | nil => intro x hx; cases hx
  | cons y ys ih =>
    intro x hx hev
    rw [show concatMap f (y :: ys) = f y ++ concatMap f ys from rfl]
    rcases List.mem_cons.mp hx with rfl | hys
    · exact List.mem_append_left _ hev
    · exact List.mem_append_right _ (ih x hys hev)

theorem saveCkpt_not_batch {rank epoch step : Nat} {nf : List Nat} {p : String} :
    Event.saveCkpt p ∉ batchEvents rank epoch step nf := by
  intro h
  unfold batchEvents at h
  rcases List.mem_append.mp h with h4 | hopt
  · simp at h4
  · by_cases hc : rank = 0 ∧ step % 20 = 0
    · rw [if_pos hc] at hopt; simp at hopt
    · rw [if_neg hc] at hopt; cases hopt

theorem saveCkpt_not_loopGo {rank epoch : Nat} {p : String} (flows : List (List Nat)) :
    ∀ step, Event.saveCkpt p ∉ loopGo rank epoch step flows := by
  induction flows with
  | nil => intro step h; cases h
  | cons nf rest ih =>
    intro step h
    rw [show loopGo rank epoch step (nf :: rest)
          = batchEvents rank epoch (step + 1) nf ++ loopGo rank epoch (step + 1) rest
        from rfl] at h
    rcases List.mem_append.mp h with hb | hr
    · exact saveCkpt_not_batch hb
    · exact ih (step + 1) hr

theorem saveCkpt_epoch {d : String} {rank epoch : Nat} {flows : List (List Nat)}
    {p : String} (h : Event.saveCkpt p ∈ epochEvents d rank epoch flows) :
    checkpointAction d rank epoch = some p := by
  unfold epochEvents at h
  rcases List.mem_append.mp h with h12 | h3
  · rcases List.mem_append.mp h12 with h1 | h2
    · exact absurd h1 (saveCkpt_not_loopGo flows 0)
    · by_cases hr : rank = 0
      · rw [if_pos hr] at h2; simp at h2
      · rw [if_neg hr] at h2; cases h2
  · cases hca : checkpointAction d rank epoch with
    | none => rw [hca] at h3; cases h3
    | some q =>
      rw [hca] at h3
      simp at h3
      rw [h3]

theorem checkpointAction_some {d : String} {rank epoch : Nat} {p : String}
    (h : checkpointAction d rank epoch = some p) :
    rank = 0 ∧ (epoch + 1) % 5 = 0 ∧ p = ckptFilepath d epoch := by
  unfold checkpointAction at h
  by_cases hc : (epoch + 1) % 5 = 0 ∧ rank = 0
  · rw [if_pos hc] at h
    exact ⟨hc.2, hc.1, (Option.some.inj h).symm⟩
  · rw [if_neg hc] at h
    cases h

/-- C1: a checkpoint is written if and only if the worker's rank is 0
and `(epoch + 1) % 5 == 0`; when it is written, it is written at the
path keyed by the epoch number inside the configured checkpoint
directory; and in a full worker trace every checkpoint-write event
implies rank 0, an in-range epoch satisfying the condition, and that
path — so workers of non-zero rank never write one. -/
theorem checkpoint_iff_rank0_and_every_5_epochs (d : String) (rank epoch : Nat) :
    ((checkpointAction d rank epoch).isSome = true ↔
      (rank = 0 ∧ (epoch + 1) % 5 = 0)) ∧
    (checkpointAction d rank epoch = none ∨
      checkpointAction d rank epoch = some (ckptFilepath d epoch)) ∧
    (∀ (ne : Nat) (flowsOf : Nat → List (List Nat)) (p : String),
      Event.saveCkpt p ∈ trainerEvents d rank ne flowsOf →
        rank = 0 ∧ ∃ ep, ep < ne ∧ (ep + 1) % 5 = 0 ∧ p = ckptFilepath d ep) := by
  refine ⟨?_, ?_, ?_⟩
  · unfold checkpointAction
    by_cases hc : (epoch + 1) % 5 = 0 ∧ rank = 0
    · rw [if_pos hc]
      simp [hc.1, hc.2]
    · rw [if_neg hc]
      simp
      exact fun hr hm => hc ⟨hm, hr⟩
  · unfold checkpointAction
    by_cases hc : (epoch + 1) % 5 = 0 ∧ rank = 0
    · rw [if_pos hc]; right; rfl
    · rw [if_neg hc]; left; rfl
  · intro ne flowsOf p h
    unfold trainerEvents at h
    rcases List.mem_append.mp h with hs | hc
    · simp [setupEvents] at hs
    · obtain ⟨ep, hep, hmem⟩ := mem_concatMap hc
      obtain ⟨hr, hm, hp⟩ := checkpointAction_some (saveCkpt_epoch hmem)
      exact ⟨hr, ep, List.mem_range.mp hep, hm, hp⟩

/-- C1 witness: at rank 0 and epoch index 4 (the fifth epoch) a
checkpoint is written; in a rank-0 five-epoch run the write event for
the epoch-keyed path appears in the trace and the theorem recovers rank
0 and the qualifying epoch. -/
theorem checkpoint_iff_rank0_and_every_5_epochs_witness :
    (checkpointAction "ck" 0 4).isSome = true ∧
    (0 = 0 ∧ ∃ ep, ep < 5 ∧ (ep + 1) % 5 = 0 ∧
      ckptFilepath "ck" 4 = ckptFilepath "ck" ep) := by
  have h := checkpoint_iff_rank0_and_every_5_epochs "ck" 0 4
  have hca : checkpointAction "ck" 0 4 = some (ckptFilepath "ck" 4) := by
    unfold checkpointAction
    rw [if_pos (by decide)]
  have hememb : Event.saveCkpt (ckptFilepath "ck" 4) ∈ epochEvents "ck" 0 4 [] := by
    unfold epochEvents
    apply List.mem_append_right
    rw [hca]
    exact List.mem_singleton.mpr rfl
  have hmem : Event.saveCkpt (ckptFilepath "ck" 4)
      ∈ trainerEvents "ck" 0 5 (fun _ => []) := by
    unfold trainerEvents
    apply List.mem_append_right
    exact mem_concatMap_of _ _ (List.range 5) 4 (by decide) hememb
  exact ⟨h.1.mpr ⟨rfl, by decide⟩, h.2.2 5 (fun _ => []) (ckptFilepath "ck" 4) hmem⟩

theorem countInfer_append (a b : List Event) :
    countInfer (a ++ b) = countInfer a + countInfer b := by
  unfold countInfer
  rw [List.filter_append, List.length_append]

theorem countInfer_batch (rank epoch step : Nat) (nf : List Nat) :
    countInfer (batchEvents rank epoch step nf) = 0 := by
  unfold countInfer batchEvents
  split <;> simp

theorem countInfer_loopGo (rank epoch : Nat) (flows : List (List Nat)) :
    ∀ step, countInfer (loopGo rank epoch step flows) = 0 := by
  induction flows with
  | nil => intro step; rfl
  | cons nf rest ih =>
    intro step
    rw [show loopGo rank epoch step (nf :: rest)
          = batchEvents rank epoch (step + 1) nf ++ loopGo rank epoch (step + 1) rest
        from rfl]
    rw [countInfer_append, countInfer_batch, ih (step + 1)]

theorem countInfer_epoch (d : String) (rank epoch : Nat) (flows : List (List Nat)) :
    countInfer (epochEvents d rank epoch flows) = 0 := by
  unfold epochEvents
  rw [countInfer_append, countInfer_append, countInfer_loopGo]
  have h1 : countInfer (if rank = 0 then [Event.logEpoch (epoch + 1)] else []) = 0 := by
    split <;> simp [countInfer]
  have h2 : countInfer (match checkpointAction d rank epoch with
      | some p => [Event.saveCkpt p]
      | none => []) = 0 := by
    cases checkpointAction d rank epoch <;> simp [countInfer]
  rw [h1, h2]

theorem countInfer_setup (rank : Nat) : countInfer (setupEvents rank) = 0 := by
  simp [countInfer, setupEvents]

theorem countInfer_concatMap_zero {f : Nat → List Event}
    (hz : ∀ x : Nat, countInfer (f x) = 0) :
    ∀ l : List Nat, countInfer (concatMap f l) = 0 := by
  intro l
  induction l with
  | nil => rfl
  | cons x xs ih =>
    rw [show concatMap f (x :: xs) = f x ++ concatMap f xs from rfl]
    rw [countInfer_append, hz x, ih]

/-- C10: in every worker trace the full-graph inference model is
constructed and moved to the worker's device, but no state of the run
ever invokes it: the trace contains zero inference-forward events. -/
theorem infer_model_built_but_never_invoked (d : String) (rank ne : Nat)
    (flowsOf : Nat → List (List Nat)) :
    Event.buildInferModel ∈ trainerEvents d rank ne flowsOf ∧
    Event.inferModelToDevice ∈ trainerEvents d rank ne flowsOf ∧
    countInfer (trainerEvents d rank ne flowsOf) = 0 := by
  refine ⟨?_, ?_, ?_⟩
  · unfold trainerEvents
    exact List.mem_append_left _ (by simp [setupEvents])
  · unfold trainerEvents
    exact List.mem_append_left _ (by simp [setupEvents])
  · unfold trainerEvents
    rw [countInfer_append, countInfer_setup,
      countInfer_concatMap_zero (fun ep => countInfer_epoch d rank ep (flowsOf ep))
        (List.range ne)]

/-- Fallible stages of `trainer`, in program order: process
initialization, partition load, remote feature fetch, the training
loop. -/
inductive Stage where
  | initP
  | loadPart
  | fetchFeat
  | trainLoop
deriving DecidableEq

/-- The stages `trainer` runs, in program order. -/
def stageOrder : List Stage :=
  [Stage.initP, Stage.loadPart, Stage.fetchFeat, Stage.trainLoop]

/-- Runs stages in order with no exception handler: records the stages
attempted and stops at the first error, which is returned unchanged —
the script has no try/except, retry, or cleanup anywhere. -/
def runStagesGo (f : Stage → Except String Unit) :
    List Stage → List Stage × Except String Unit
  | [] => ([], Except.ok ())
  | s :: rest =>
    match f s with
    | Except.error e => ([s], Except.error e)
    | Except.ok _ =>
      ((runStagesGo f rest).1.cons s, (runStagesGo f rest).2)

/-- The whole `trainer` body as a sequence of fallible stages. -/
def trainerRun (f : Stage → Except String Unit) : List Stage × Except String Unit :=
  runStagesGo f stageOrder

theorem runStagesGo_sublist (f : Stage → Except String Unit) :
    ∀ l : List Stage, List.Sublist (runStagesGo f l).1 l := by
  intro l
  induction l with
  | nil => exact List.Sublist.refl []
  | cons s rest ih =>
    cases hfs : f s with
    | error e =>
      rw [show (runStagesGo f (s :: rest)).1
            = (match f s with
               | Except.error e => ([s], Except.error e)
               | Except.ok _ =>
                 ((runStagesGo f rest).1.cons s, (runStagesGo f rest).2)).1 from rfl,
        hfs]
      exact List.Sublist.cons₂ s (List.nil_sublist rest)
    | ok u =>
      rw [show (runStagesGo f (s :: rest)).1
            = (match f s with
               | Except.error e => ([s], Except.error e)
               | Except.ok _ =>
                 ((runStagesGo f rest).1.cons s, (runStagesGo f rest).2)).1 from rfl,
        hfs]
      exact List.Sublist.cons₂ s ih

/-- C5: a failure in process initialization, partition loading, feature
fetching, or the training loop propagates unhandled and terminates the
worker: the run's result is exactly that error, the attempted-stage list
stops at the failing stage (no cleanup or rollback runs after it), and
no stage is attempted twice (no retry). -/
theorem failure_propagates_without_retry_or_cleanup
    (f : Stage → Except String Unit) (e : String) :
    (f Stage.initP = Except.error e →
      trainerRun f = ([Stage.initP], Except.error e)) ∧
    (f Stage.initP = Except.ok () → f Stage.loadPart = Except.error e →
      trainerRun f = ([Stage.initP, Stage.loadPart], Except.error e)) ∧
    (f Stage.initP = Except.ok () → f Stage.loadPart = Except.ok () →
      f Stage.fetchFeat = Except.error e →
      trainerRun f = ([Stage.initP, Stage.loadPart, Stage.fetchFeat], Except.error e)) ∧
    (f Stage.initP = Except.ok () → f Stage.loadPart = Except.ok () →
      f Stage.fetchFeat = Except.ok () → f Stage.trainLoop = Except.error e →
      trainerRun f = (stageOrder, Except.error e)) ∧
    (List.Sublist (trainerRun f).1 stageOrder ∧ (trainerRun f).1.Nodup) := by
  refine ⟨?_, ?_, ?_, ?_, ?_⟩
  · intro h1
    simp [trainerRun, runStagesGo, stageOrder, h1]
  · intro h1 h2
    simp [trainerRun, runStagesGo, stageOrder, h1, h2]
  · intro h1 h2 h3
    simp [trainerRun, runStagesGo, stageOrder, h1, h2, h3]
  · intro h1 h2 h3 h4
    simp [trainerRun, runStagesGo, stageOrder, h1, h2, h3, h4]
  · have hsub : List.Sublist (trainerRun f).1 stageOrder :=
      runStagesGo_sublist f stageOrder
    exact ⟨hsub, List.Nodup.sublist hsub (by decide)⟩

/-- C5 witness: with a stage map that fails at feature fetching, the run
ends in exactly that error with no stage after the failing one and no
duplicates. -/
theorem failure_propagates_without_retry_or_cleanup_witness :
    trainerRun (fun s => match s with
      | Stage.fetchFeat => Except.error "store unavailable"
      | _ => Except.ok ())
      = ([Stage.initP, Stage.loadPart, Stage.fetchFeat],
         Except.error "store unavailable") :=
  (failure_propagates_without_retry_or_cleanup
    (fun s => match s with
      | Stage.fetchFeat => Except.error "store unavailable"
      | _ => Except.ok ()) "store unavailable").2.2.1 rfl rfl rfl
